import Mathlib

/-!
Verification of the core query engine (`Firestore/core/src/core/query.cc`):
order-by normalization, document matching, target derivation,
canonicalization and query equality.

The file embeds `query.cc` shallowly.  Collaborating components that are
declared elsewhere in the repository (field paths, resource paths, document
keys, filters, bounds, targets) are modelled from the specification and are
marked `Modelled from the spec:` in their doc comments.
-/

namespace QueryCore

/-- Modelled from the spec: a field path is an ordered sequence of segments;
the document-key field is the reserved sentinel path. -/
abbrev FieldPath := List String

/-- Modelled from the spec: the reserved key field path
(`FieldPath::KeyFieldPath()`). -/
def FieldPath.KeyFieldPath : FieldPath := ["__name__"]

/-- Modelled from the spec: whether this path is the document-key path. -/
def FieldPath.IsKeyFieldPath (p : FieldPath) : Bool :=
  p == FieldPath.KeyFieldPath

/-- Modelled from the spec: a resource path is a slash-separated path,
represented as its list of segments. -/
abbrev ResourcePath := List String

/-- Modelled from the spec: path prefix test (`ResourcePath::IsPrefixOf`). -/
def ResourcePath.IsPrefixOf (p child : ResourcePath) : Bool :=
  List.isPrefixOf p child

/-- Modelled from the spec: `p` is the immediate parent of `child` — `child`
is exactly one segment longer and extends `p` (shallow collection scoping). -/
def ResourcePath.IsImmediateParentOf (p child : ResourcePath) : Bool :=
  p.length + 1 == child.length && List.isPrefixOf p child

/-- Modelled from the spec: a path denotes a document when it has an odd
path-segment count under the domain's addressing scheme
(`DocumentKey::IsDocumentKey`). -/
def DocumentKey.IsDocumentKey (p : ResourcePath) : Bool :=
  p.length % 2 == 1

/-- Modelled from the spec: the document's key belongs to a collection with
the given id — the segment naming its enclosing collection equals `group`
(`DocumentKey::HasCollectionGroup`). -/
def DocumentKey.HasCollectionGroup (p : ResourcePath) (group : String) : Bool :=
  match p.dropLast.getLast? with
  | some s => s == group
  | none => false

/-- Sort direction of an ordering clause. -/
inductive Direction where
  | Ascending
  | Descending
deriving DecidableEq

/-- The spec-side inversion of a direction: Ascending becomes Descending and
vice versa. -/
def Direction.Inverted : Direction → Direction
  | .Ascending => .Descending
  | .Descending => .Ascending

/-- An ordering clause: a (field, direction) pair (`OrderBy`). -/
structure OrderBy where
  field : FieldPath
  direction : Direction
deriving DecidableEq

/-- Modelled from the spec: a field value.  Filter construction and value
semantics are external collaborators; a small closed universe of values
suffices for the query core. -/
inductive Value where
  | int (i : Int)
  | str (s : String)
  | boolean (b : Bool)
deriving DecidableEq

/-- Modelled from the spec: a deterministic total comparison on values
(cross-type values ordered by a fixed type rank). -/
def Value.typeRank : Value → Nat
  | .boolean _ => 0
  | .int _ => 1
  | .str _ => 2

/-- Modelled from the spec: total order used when comparing two field
values. -/
def valueCompare (v w : Value) : Ordering :=
  match v, w with
  | .boolean a, .boolean b => compare a b
  | .int a, .int b => compare a b
  | .str a, .str b => compare a b
  | _, _ => compare v.typeRank w.typeRank

/-- Modelled from the spec: field-filter operators.  The inequality
operators are `<`, `<=`, `>`, `>=` and the range-excluding `!=`. -/
inductive FilterOperator where
  | LessThan
  | LessThanOrEqual
  | Equal
  | NotEqual
  | GreaterThan
  | GreaterThanOrEqual
deriving DecidableEq

/-- Modelled from the spec: whether the operator constrains an inequality. -/
def FilterOperator.IsInequality : FilterOperator → Bool
  | .LessThan | .LessThanOrEqual | .GreaterThan | .GreaterThanOrEqual
  | .NotEqual => true
  | _ => false

/-- Kind of a composite filter. -/
inductive CompositeKind where
  | And
  | Or
deriving DecidableEq

/-- Modelled from the spec: a filter is a tagged variant — a leaf field
filter (field, operator, value) or a composite AND/OR over sub-filters. -/
inductive Filter where
  | fieldFilter (fp : FieldPath) (op : FilterOperator) (value : Value)
  | composite (kind : CompositeKind) (subs : List Filter)

mutual

/-- Decidable equality on filters (the automatic derivation does not handle
the nested occurrence of `List Filter`). -/
def Filter.decEq : (a b : Filter) → Decidable (a = b)
  | .fieldFilter f1 o1 v1, .fieldFilter f2 o2 v2 =>
      if h : f1 = f2 ∧ o1 = o2 ∧ v1 = v2 then
        isTrue (by obtain ⟨h1, h2, h3⟩ := h; subst h1; subst h2; subst h3; rfl)
      else
        isFalse (by intro he; injection he with h1 h2 h3; exact h ⟨h1, h2, h3⟩)
  | .fieldFilter _ _ _, .composite _ _ => isFalse (by intro he; cases he)
  | .composite _ _, .fieldFilter _ _ _ => isFalse (by intro he; cases he)
  | .composite k1 s1, .composite k2 s2 =>
      if h : k1 = k2 then
        match Filter.decEqList s1 s2 with
        | isTrue h2 => isTrue (by subst h; subst h2; rfl)
        | isFalse h2 => isFalse (by intro he; cases he; exact h2 rfl)
      else isFalse (by intro he; cases he; exact h rfl)

/-- Decidable equality on lists of filters. -/
def Filter.decEqList : (a b : List Filter) → Decidable (a = b)
  | [], [] => isTrue rfl
  | [], _ :: _ => isFalse (by intro he; cases he)
  | _ :: _, [] => isFalse (by intro he; cases he)
  | x :: xs, y :: ys =>
      match Filter.decEq x y, Filter.decEqList xs ys with
      | isTrue h1, isTrue h2 => isTrue (by subst h1; subst h2; rfl)
      | isFalse h, _ => isFalse (by intro he; cases he; exact h rfl)
      | isTrue _, isFalse h => isFalse (by intro he; cases he; exact h rfl)

end

instance : DecidableEq Filter := Filter.decEq

/-- Modelled from the spec: a document — key path, field contents and
whether it denotes an existing (found) entity. -/
structure Document where
  key : ResourcePath
  contents : List (FieldPath × Value)
  found : Bool
deriving DecidableEq

/-- Modelled from the spec: read-only field access by path
(`Document::field`). -/
def Document.getField (d : Document) (p : FieldPath) : Option Value :=
  (d.contents.find? (fun kv => kv.1 == p)).map (·.2)

/-- Modelled from the spec: operator application of a leaf field filter to a
document value. -/
def FilterOperator.Apply (op : FilterOperator) (docValue value : Value) : Bool :=
  match op with
  | .Equal => docValue == value
  | .NotEqual => docValue != value
  | .LessThan => valueCompare docValue value == .lt
  | .LessThanOrEqual => valueCompare docValue value != .gt
  | .GreaterThan => valueCompare docValue value == .gt
  | .GreaterThanOrEqual => valueCompare docValue value != .lt

mutual

/-- Modelled from the spec: `Filter::Matches` — a leaf filter matches when
the document has a value at the field and the operator relates it to the
filter value; composites apply AND/OR over their sub-filters. -/
def Filter.Matches : Filter → Document → Bool
  | .fieldFilter fp op value, doc =>
      match doc.getField fp with
      | none => false
      | some dv => op.Apply dv value
  | .composite kind subs, doc =>
      match kind with
      | .And => Filter.allMatch subs doc
      | .Or => Filter.anyMatch subs doc

/-- Modelled from the spec: conjunction over a sub-filter list. -/
def Filter.allMatch : List Filter → Document → Bool
  | [], _ => true
  | f :: rest, doc => f.Matches doc && Filter.allMatch rest doc

/-- Modelled from the spec: disjunction over a sub-filter list. -/
def Filter.anyMatch : List Filter → Document → Bool
  | [], _ => false
  | f :: rest, doc => f.Matches doc || Filter.anyMatch rest doc

end

mutual

/-- Modelled from the spec: `Filter::GetFirstInequalityField` — the first
field constrained by an inequality operator, depth-first through
composites. -/
def Filter.GetFirstInequalityField : Filter → Option FieldPath
  | .fieldFilter fp op _ => if op.IsInequality then some fp else none
  | .composite _ subs => Filter.firstInequalityInList subs

/-- Modelled from the spec: first inequality field of a sub-filter list. -/
def Filter.firstInequalityInList : List Filter → Option FieldPath
  | [] => none
  | f :: rest =>
      match f.GetFirstInequalityField with
      | some fp => some fp
      | none => Filter.firstInequalityInList rest

end

/-- Modelled from the spec: a cursor — a position (sequence of values) plus
an inclusive flag (`Bound`). -/
structure Bound where
  position : List Value
  inclusive : Bool
deriving DecidableEq

/-- Limit kind of a query (`LimitType`). -/
inductive LimitType where
  | None
  | First
  | Last
deriving DecidableEq

/-- The immutable query value (`core::Query`): scope, filters, explicit
ordering clauses, limit and limit kind, start/end cursors.  Memoization of
derived fields is an internal optimization without observable effect and is
not modelled. -/
structure Query where
  path : ResourcePath
  collection_group : Option String
  filters : List Filter
  explicit_order_bys : List OrderBy
  limit : Int
  limit_type : LimitType
  start_at : Option Bound
  end_at : Option Bound
deriving DecidableEq

/-- `Query::IsDocumentQuery`: document-shaped path, no collection group, no
filters. -/
def Query.IsDocumentQuery (q : Query) : Bool :=
  DocumentKey.IsDocumentKey q.path && q.collection_group.isNone &&
    q.filters.isEmpty

/-- `Query::InequalityFilterField`: the first inequality field found across
the filter list, in order. -/
def Query.InequalityFilterField (q : Query) : Option FieldPath :=
  q.filters.findSome? Filter.GetFirstInequalityField

/-- `Query::FirstOrderByField`: the field of the first explicit ordering
clause, if any. -/
def Query.FirstOrderByField (q : Query) : Option FieldPath :=
  q.explicit_order_bys.head?.map OrderBy.field

/-- `Query::normalized_order_bys`.  The C++ branches on
`inequality_field && !first_order_by_field`; `FirstOrderByField()` is null
exactly when `explicit_order_bys_` is empty, so the guard is expressed as a
match on the inequality field and the explicit list.  The `HARD_ASSERT` in
the second branch does not alter the returned value and is accounted for
separately (see `Query.AddingFilter` / `Query.AddingOrderBy`, whose checks
keep it from firing on queries built through the builder API). -/
def Query.normalized_order_bys (q : Query) : List OrderBy :=
  match q.InequalityFilterField, q.explicit_order_bys with
  | some inequality_field, [] =>
      if inequality_field.IsKeyFieldPath then
        [⟨FieldPath.KeyFieldPath, Direction.Ascending⟩]
      else
        [⟨inequality_field, Direction.Ascending⟩,
         ⟨FieldPath.KeyFieldPath, Direction.Ascending⟩]
  | _, _ =>
      let result := q.explicit_order_bys
      let found_explicit_key_order :=
        q.explicit_order_bys.any (fun ob => ob.field.IsKeyFieldPath)
      if found_explicit_key_order then
        result
      else
        let last_direction :=
          match q.explicit_order_bys.getLast? with
          | none => Direction.Ascending
          | some ob => ob.direction
        result ++ [⟨FieldPath.KeyFieldPath, last_direction⟩]

/-- The second `HARD_ASSERT` of `AddingFilter`: an existing inequality
field and the new filter's inequality field, when both present, must
agree. -/
def Query.addingFilterInequalityOk (q : Query) (filter : Filter) : Bool :=
  match q.InequalityFilterField, filter.GetFirstInequalityField with
  | some qf, some nf => qf == nf
  | _, _ => true

/-- The third `HARD_ASSERT` of `AddingFilter`: the first explicit order-by,
when present, must be on the new filter's inequality field, when the
latter exists. -/
def Query.addingFilterOrderByOk (q : Query) (filter : Filter) : Bool :=
  match q.explicit_order_bys, filter.GetFirstInequalityField with
  | ob :: _, some nf => ob.field == nf
  | _, _ => true

/-- `Query::AddingFilter`.  The three `HARD_ASSERT`s (not a document query;
the new filter's inequality field agrees with an already-present inequality
field; it agrees with the first explicit ordering clause's field) abort the
process when violated, embedded as `none`.  On success the filter is
appended and every other field carried over. -/
def Query.AddingFilter (q : Query) (filter : Filter) : Option Query :=
  if q.IsDocumentQuery then none
  else if !(q.addingFilterInequalityOk filter) then none
  else if !(q.addingFilterOrderByOk filter) then none
  else some { q with filters := q.filters ++ [filter] }

/-- The second `HARD_ASSERT` of `AddingOrderBy`: when this is the first
explicit clause, an existing inequality field must equal its field. -/
def Query.addingOrderByOk (q : Query) (order_by : OrderBy) : Bool :=
  match q.explicit_order_bys with
  | [] =>
      match q.InequalityFilterField with
      | none => true
      | some inequality => inequality == order_by.field
  | _ :: _ => true

/-- `Query::AddingOrderBy`.  Aborts (here: `none`) on a document query, or
when this is the first explicit clause and an inequality filter on a
different field exists.  On success the clause is appended. -/
def Query.AddingOrderBy (q : Query) (order_by : OrderBy) : Option Query :=
  if q.IsDocumentQuery then none
  else if !(q.addingOrderByOk order_by) then none
  else
    some { q with explicit_order_bys := q.explicit_order_bys ++ [order_by] }

/-- `Query::WithLimitToFirst`. -/
def Query.WithLimitToFirst (q : Query) (limit : Int) : Query :=
  { q with limit := limit, limit_type := LimitType.First }

/-- `Query::WithLimitToLast`. -/
def Query.WithLimitToLast (q : Query) (limit : Int) : Query :=
  { q with limit := limit, limit_type := LimitType.Last }

/-- `Query::MatchesPathAndCollectionGroup`. -/
def Query.MatchesPathAndCollectionGroup (q : Query) (doc : Document) : Bool :=
  let doc_path := doc.key
  match q.collection_group with
  | some group =>
      DocumentKey.HasCollectionGroup doc.key group &&
        ResourcePath.IsPrefixOf q.path doc_path
  | none =>
      if DocumentKey.IsDocumentKey q.path then
        q.path == doc_path
      else
        ResourcePath.IsImmediateParentOf q.path doc_path

/-- `Query::MatchesFilters`: every filter matches the document. -/
def Query.MatchesFilters (q : Query) (doc : Document) : Bool :=
  q.filters.all (fun filter => filter.Matches doc)

/-- `Query::MatchesOrderBy`: every normalized ordering clause other than a
key clause requires the document to have a value at that field path. -/
def Query.MatchesOrderBy (q : Query) (doc : Document) : Bool :=
  q.normalized_order_bys.all (fun order_by =>
    order_by.field.IsKeyFieldPath || (doc.getField order_by.field).isSome)

/-- Modelled from the spec: componentwise comparison of one cursor position
value against the corresponding document component under one ordering
clause (`Bound` internals are declared outside the given sources). -/
def boundComponentCompare (order_by : OrderBy) (v : Value) (doc : Document) :
    Ordering :=
  let raw :=
    if order_by.field.IsKeyFieldPath then
      valueCompare v (Value.str (String.intercalate ("/") doc.key))
    else
      match doc.getField order_by.field with
      | none => Ordering.lt
      | some dv => valueCompare v dv
  match order_by.direction with
  | .Ascending => raw
  | .Descending => raw.swap

/-- Modelled from the spec: position-versus-document comparison under an
ordering clause list, first non-equal component wins. -/
def boundCompareToDocument :
    List Value → List OrderBy → Document → Ordering
  | [], _, _ => .eq
  | _, [], _ => .eq
  | v :: vs, ob :: obs, doc =>
      match boundComponentCompare ob v doc with
      | .eq => boundCompareToDocument vs obs doc
      | r => r

/-- Modelled from the spec: `Bound::SortsBeforeDocument` — the cursor
position sorts at (when inclusive) or strictly before the document under
the supplied ordering. -/
def Bound.SortsBeforeDocument (b : Bound) (order_bys : List OrderBy)
    (doc : Document) : Bool :=
  match boundCompareToDocument b.position order_bys doc with
  | .lt => true
  | .eq => b.inclusive
  | .gt => false

/-- Modelled from the spec: `Bound::SortsAfterDocument` — the cursor
position sorts at (when inclusive) or strictly after the document under the
supplied ordering. -/
def Bound.SortsAfterDocument (b : Bound) (order_bys : List OrderBy)
    (doc : Document) : Bool :=
  match boundCompareToDocument b.position order_bys doc with
  | .gt => true
  | .eq => b.inclusive
  | .lt => false

/-- `Query::MatchesBounds`. -/
def Query.MatchesBounds (q : Query) (doc : Document) : Bool :=
  (match q.start_at with
   | some bound => bound.SortsBeforeDocument q.normalized_order_bys doc
   | none => true) &&
  (match q.end_at with
   | some bound => bound.SortsAfterDocument q.normalized_order_bys doc
   | none => true)

/-- `Query::Matches`: found document, in scope, has all ordering fields,
passes all filters, within bounds. -/
def Query.Matches (q : Query) (doc : Document) : Bool :=
  doc.found && q.MatchesPathAndCollectionGroup doc &&
    q.MatchesOrderBy doc && q.MatchesFilters doc && q.MatchesBounds doc

/-- Modelled from the spec: `OrderBy::Compare` — compare two documents by
this clause's field (the key clause compares document keys and is always
resolvable), then apply the direction. -/
def OrderBy.Compare (order_by : OrderBy) (d1 d2 : Document) : Ordering :=
  let raw :=
    if order_by.field.IsKeyFieldPath then
      compare (String.intercalate ("/") d1.key) (String.intercalate ("/") d2.key)
    else
      match d1.getField order_by.field, d2.getField order_by.field with
      | some v1, some v2 => valueCompare v1 v2
      | some _, none => Ordering.gt
      | none, some _ => Ordering.lt
      | none, none => Ordering.eq
  match order_by.direction with
  | .Ascending => raw
  | .Descending => raw.swap

/-- The comparison loop inside `Query::Comparator`: first non-equal clause
result wins, otherwise the documents compare equal. -/
def compareByOrderBys : List OrderBy → Document → Document → Ordering
  | [], _, _ => .eq
  | ob :: rest, d1, d2 =>
      match ob.Compare d1 d2 with
      | .eq => compareByOrderBys rest d1 d2
      | r => r

/-- `Query::Comparator`.  The `HARD_FAIL` taken when the normalized list
has no key ordering aborts the process, embedded as `none`. -/
def Query.Comparator (q : Query) :
    Option (Document → Document → Ordering) :=
  let ordering := q.normalized_order_bys
  let has_key_ordering :=
    ordering.any (fun order_by => order_by.field == FieldPath.KeyFieldPath)
  if has_key_ordering then
    some (fun d1 d2 => compareByOrderBys ordering d1 d2)
  else
    none

/-- Modelled from the spec: the `Target` value — path, collection group,
filters, a fully normalized ordering, limit and cursors; equality is
field-by-field. -/
structure Target where
  path : ResourcePath
  collection_group : Option String
  filters : List Filter
  order_bys : List OrderBy
  limit : Int
  start_at : Option Bound
  end_at : Option Bound
deriving DecidableEq

/-- `Query::ToTarget(order_bys)` — the shared target builder.  For
`LimitType::Last` every ordering clause's direction is flipped
(`Descending` maps to `Ascending`, anything else to `Descending`) and the
cursors are rebuilt swapped via `Bound::FromValue(position, inclusive)`;
otherwise ordering and cursors pass through unchanged. -/
def Query.ToTargetWithOrderBys (q : Query) (order_bys : List OrderBy) :
    Target :=
  match q.limit_type with
  | .Last =>
      let new_order_bys := order_bys.map (fun order_by =>
        let dir :=
          if order_by.direction == Direction.Descending then
            Direction.Ascending
          else
            Direction.Descending
        OrderBy.mk order_by.field dir)
      let new_start_at := q.end_at.map (fun b => Bound.mk b.position b.inclusive)
      let new_end_at := q.start_at.map (fun b => Bound.mk b.position b.inclusive)
      ⟨q.path, q.collection_group, q.filters, new_order_bys, q.limit,
       new_start_at, new_end_at⟩
  | _ =>
      ⟨q.path, q.collection_group, q.filters, order_bys, q.limit,
       q.start_at, q.end_at⟩

/-- `Query::ToTarget()`: the memoized point-query target, built from the
normalized ordering. -/
def Query.ToTarget (q : Query) : Target :=
  q.ToTargetWithOrderBys q.normalized_order_bys

/-- `Query::ToAggregateTarget()`: built from the explicit ordering only. -/
def Query.ToAggregateTarget (q : Query) : Target :=
  q.ToTargetWithOrderBys q.explicit_order_bys

/-- Modelled from the spec: canonical string of a direction. -/
def Direction.CanonicalString : Direction → String
  | .Ascending => "asc"
  | .Descending => "desc"

/-- Modelled from the spec: canonical string of a field path. -/
def FieldPath.CanonicalString (p : FieldPath) : String :=
  String.intercalate (".") p

/-- Modelled from the spec: canonical string of a value. -/
def Value.CanonicalString : Value → String
  | .int i => "i:" ++ toString i
  | .str s => "s:" ++ s
  | .boolean b => "b:" ++ toString b

/-- Modelled from the spec: canonical string of an operator. -/
def FilterOperator.CanonicalString : FilterOperator → String
  | .LessThan => "<"
  | .LessThanOrEqual => "<="
  | .Equal => "=="
  | .NotEqual => "!="
  | .GreaterThan => ">"
  | .GreaterThanOrEqual => ">="

mutual

/-- Modelled from the spec: canonical string of a filter. -/
def Filter.CanonicalString : Filter → String
  | .fieldFilter fp op value =>
      fp.CanonicalString ++ op.CanonicalString ++ value.CanonicalString
  | .composite kind subs =>
      (match kind with | .And => "and(" | .Or => "or(") ++
        Filter.canonicalStringList subs ++ ")"

/-- Modelled from the spec: canonical string of a filter list. -/
def Filter.canonicalStringList : List Filter → String
  | [] => ""
  | f :: rest => f.CanonicalString ++ "," ++ Filter.canonicalStringList rest

end

/-- Modelled from the spec: canonical string of an ordering clause. -/
def OrderBy.CanonicalString (order_by : OrderBy) : String :=
  order_by.field.CanonicalString ++ order_by.direction.CanonicalString

/-- Modelled from the spec: canonical string of an optional cursor. -/
def boundCanonicalString : Option Bound → String
  | none => ""
  | some b =>
      (if b.inclusive then "b:" else "a:") ++
        String.intercalate (",") (b.position.map Value.CanonicalString)

/-- Modelled from the spec: `Target::CanonicalId` — a deterministic string
encoding of all fields of the target. -/
def Target.CanonicalId (t : Target) : String :=
  String.intercalate ("/") t.path ++
    "|cg:" ++ (match t.collection_group with | some g => g | none => "") ++
    "|f:" ++ Filter.canonicalStringList t.filters ++
    "|ob:" ++ String.intercalate (",") (t.order_bys.map OrderBy.CanonicalString) ++
    "|l:" ++ toString t.limit ++
    "|lb:" ++ boundCanonicalString t.start_at ++
    "|ub:" ++ boundCanonicalString t.end_at

/-- `Query::CanonicalId`: the target's canonical id, with the limit-kind
suffix appended when a limit is set. -/
def Query.CanonicalId (q : Query) : String :=
  if q.limit_type != LimitType.None then
    q.ToTarget.CanonicalId ++ "|lt:" ++
      (if q.limit_type == LimitType.Last then "l" else "f")
  else
    q.ToTarget.CanonicalId

/-- `operator==(Query, Query)`: equal limit types and equal derived
targets. -/
def queryEq (lhs rhs : Query) : Bool :=
  lhs.limit_type == rhs.limit_type && lhs.ToTarget == rhs.ToTarget

/-! ### Concrete values used by witnesses and counterexamples -/

/-- A collection query on `rooms` with the single filter `score > 10` and no
explicit ordering (the spec's running scenario). -/
def scoreQuery : Query :=
  ⟨["rooms"], none,
   [Filter.fieldFilter ["score"] FilterOperator.GreaterThan (Value.int 10)],
   [], -1, LimitType.None, none, none⟩

/-- A collection query on `rooms` ordered explicitly by `score`
descending. -/
def scoreOrderQuery : Query :=
  ⟨["rooms"], none, [], [⟨["score"], Direction.Descending⟩],
   -1, LimitType.None, none, none⟩

/-- A collection query whose explicit ordering puts the key clause first and
another field after it. -/
def keyThenScoreQuery : Query :=
  ⟨["rooms"], none, [],
   [⟨FieldPath.KeyFieldPath, Direction.Ascending⟩,
    ⟨["score"], Direction.Ascending⟩],
   -1, LimitType.None, none, none⟩

/-- An existing document at `rooms/room1` carrying `score = 15`. -/
def roomWithScore : Document :=
  ⟨["rooms", "room1"], [(["score"], Value.int 15)], true⟩

/-- An existing document at `rooms/room1` with no `score` field. -/
def roomWithoutScore : Document :=
  ⟨["rooms", "room1"], [], true⟩

/-! ### Helper lemmas on normalization -/

/-- The direction of the implicit key clause: that of the last explicit
clause, ascending when there is none. -/
def implicitKeyDirection (q : Query) : Direction :=
  match q.explicit_order_bys.getLast? with
  | none => Direction.Ascending
  | some ob => ob.direction

/-- Synthesized branch of normalization: an inequality field and no
explicit ordering. -/
lemma normalized_synth (q : Query) (i : FieldPath)
    (hI : q.InequalityFilterField = some i)
    (hE : q.explicit_order_bys = []) :
    q.normalized_order_bys =
      if i.IsKeyFieldPath then
        [⟨FieldPath.KeyFieldPath, Direction.Ascending⟩]
      else
        [⟨i, Direction.Ascending⟩,
         ⟨FieldPath.KeyFieldPath, Direction.Ascending⟩] := by
  unfold Query.normalized_order_bys
  rw [hI, hE]

/-- Pass-through branch of normalization: no inequality field, or explicit
ordering clauses present. -/
lemma normalized_else (q : Query)
    (h : q.InequalityFilterField = none ∨ q.explicit_order_bys ≠ []) :
    q.normalized_order_bys =
      if q.explicit_order_bys.any (fun ob => ob.field.IsKeyFieldPath) then
        q.explicit_order_bys
      else
        q.explicit_order_bys ++
          [⟨FieldPath.KeyFieldPath, implicitKeyDirection q⟩] := by
  unfold Query.normalized_order_bys implicitKeyDirection
  rcases hI : q.InequalityFilterField with _ | i <;>
    rcases hE : q.explicit_order_bys with _ | ⟨ob, rest⟩
  · rfl
  · rfl
  · rw [hI, hE] at h; simp at h
  · rfl

/-- The normalized list is never empty. -/
lemma normalized_order_bys_ne_nil (q : Query) :
    q.normalized_order_bys ≠ [] := by
  rcases hI : q.InequalityFilterField with _ | i
  · rw [normalized_else q (Or.inl hI)]
    split
    · rename_i hfound
      intro hnil
      rw [hnil] at hfound
      simp at hfound
    · simp
  · rcases hE : q.explicit_order_bys with _ | ⟨ob, rest⟩
    · rw [normalized_synth q i hI hE]
      split <;> simp
    · rw [normalized_else q (Or.inr (by rw [hE]; simp))]
      split
      · rw [hE]; simp
      · simp

/-- The normalized list always contains a key-field clause. -/
lemma normalized_order_bys_any_key (q : Query) :
    q.normalized_order_bys.any (fun ob => ob.field.IsKeyFieldPath) = true := by
  rcases hI : q.InequalityFilterField with _ | i
  · rw [normalized_else q (Or.inl hI)]
    split
    · assumption
    · simp [FieldPath.IsKeyFieldPath]
  · rcases hE : q.explicit_order_bys with _ | ⟨ob, rest⟩
    · rw [normalized_synth q i hI hE]
      split <;> simp [FieldPath.IsKeyFieldPath]
    · rw [normalized_else q (Or.inr (by rw [hE]; simp))]
      split
      · assumption
      · simp [FieldPath.IsKeyFieldPath]

/-- When no explicit clause orders by key, the appended key clause closes
the normalized list. -/
lemma normalized_order_bys_getLast_key (q : Query)
    (h : q.explicit_order_bys.all (fun ob => !ob.field.IsKeyFieldPath) = true) :
    Option.all (fun ob => ob.field.IsKeyFieldPath)
      q.normalized_order_bys.getLast? = true := by
  have hany : q.explicit_order_bys.any (fun ob => ob.field.IsKeyFieldPath)
      = false := by
    simp only [List.all_eq_true] at h
    simp only [List.any_eq_false]
    intro ob hmem
    simpa using h ob hmem
  rcases hI : q.InequalityFilterField with _ | i
  · rw [normalized_else q (Or.inl hI), if_neg (by rw [hany]; simp),
        List.getLast?_concat]
    simp [FieldPath.IsKeyFieldPath]
  · rcases hE : q.explicit_order_bys with _ | ⟨ob, rest⟩
    · rw [normalized_synth q i hI hE]
      split <;> simp [FieldPath.IsKeyFieldPath]
    · rw [normalized_else q (Or.inr (by rw [hE]; simp)),
          if_neg (by rw [hany]; simp), List.getLast?_concat]
      simp [FieldPath.IsKeyFieldPath]

/-! ### Claim theorems -/

/-- C1: `normalized_order_bys()` synthesizes `[(key, Ascending)]` when the
inequality field is the key field and `[(I, Ascending), (key, Ascending)]`
otherwise, whenever a filter constrains an inequality field `I` and no
explicit order-by clause exists; in every other case it returns
`explicitOrderBys` verbatim, appending a key clause whose direction is that
of the last explicit clause (Ascending when there is none) when no explicit
clause already orders by the key field. -/
theorem normalized_order_bys_follows_spec (q : Query) :
    (∀ i, q.InequalityFilterField = some i → q.explicit_order_bys = [] →
      q.normalized_order_bys =
        if i.IsKeyFieldPath then
          [⟨FieldPath.KeyFieldPath, Direction.Ascending⟩]
        else
          [⟨i, Direction.Ascending⟩,
           ⟨FieldPath.KeyFieldPath, Direction.Ascending⟩]) ∧
    ((q.InequalityFilterField = none ∨ q.explicit_order_bys ≠ []) →
      q.normalized_order_bys =
        if q.explicit_order_bys.any (fun ob => ob.field.IsKeyFieldPath) then
          q.explicit_order_bys
        else
          q.explicit_order_bys ++
            [⟨FieldPath.KeyFieldPath, implicitKeyDirection q⟩]) := by
  constructor
  · intro i hI hE
    exact normalized_synth q i hI hE
  · intro h
    exact normalized_else q h

/-- Witness for C1: the synthesized branch on the `score > 10` query and
the pass-through branch on the query ordered by `score` descending. -/
theorem normalized_order_bys_follows_spec_witness :
    scoreQuery.normalized_order_bys =
      [⟨["score"], Direction.Ascending⟩,
       ⟨FieldPath.KeyFieldPath, Direction.Ascending⟩] ∧
    scoreOrderQuery.normalized_order_bys =
      [⟨["score"], Direction.Descending⟩,
       ⟨FieldPath.KeyFieldPath, Direction.Descending⟩] := by
  constructor
  · have h := (normalized_order_bys_follows_spec scoreQuery).1
      ["score"] (by decide) (by decide)
    simpa using h
  · have h := (normalized_order_bys_follows_spec scoreOrderQuery).2
      (Or.inl (by decide))
    simpa [implicitKeyDirection] using h

/-- C2 counterexample: on a query whose explicit ordering is
`[(key, Ascending), (score, Ascending)]` the normalized list is returned
verbatim, so its last clause is on `score`, not on the document key. -/
theorem normalized_last_clause_counterexample :
    ¬(keyThenScoreQuery.normalized_order_bys ≠ [] ∧
      Option.all (fun ob => ob.field.IsKeyFieldPath)
        keyThenScoreQuery.normalized_order_bys.getLast? = true) := by
  decide

/-- C2 (amended): for every query, `normalized_order_bys()` is non-empty
and contains a clause on the document-key field; whenever no explicit
clause orders by the key field, its last clause is on the document-key
field. -/
theorem normalized_order_bys_totality (q : Query) :
    q.normalized_order_bys ≠ [] ∧
    q.normalized_order_bys.any (fun ob => ob.field.IsKeyFieldPath) = true ∧
    (q.explicit_order_bys.all (fun ob => !ob.field.IsKeyFieldPath) = true →
      Option.all (fun ob => ob.field.IsKeyFieldPath)
        q.normalized_order_bys.getLast? = true) :=
  ⟨normalized_order_bys_ne_nil q, normalized_order_bys_any_key q,
   normalized_order_bys_getLast_key q⟩

/-- Witness for C2 (amended) at the `score > 10` query. -/
theorem normalized_order_bys_totality_witness :
    scoreQuery.normalized_order_bys ≠ [] ∧
    Option.all (fun ob => ob.field.IsKeyFieldPath)
      scoreQuery.normalized_order_bys.getLast? = true := by
  refine ⟨(normalized_order_bys_totality scoreQuery).1, ?_⟩
  exact (normalized_order_bys_totality scoreQuery).2.2 (by decide)

/-- C6: the normalized list always contains a key-field clause, so the
fatal-failure branch of `Comparator()` is unreachable and a comparator is
always returned. -/
theorem comparator_always_returns (q : Query) :
    q.normalized_order_bys.any
      (fun ob => ob.field == FieldPath.KeyFieldPath) = true ∧
    (q.Comparator).isSome = true := by
  have hany := normalized_order_bys_any_key q
  have hany' : q.normalized_order_bys.any
      (fun ob => ob.field == FieldPath.KeyFieldPath) = true := by
    simpa [FieldPath.IsKeyFieldPath] using hany
  refine ⟨hany', ?_⟩
  simp [Query.Comparator, hany']

/-- Structure eta for bounds: rebuilding a bound from its position and
inclusive flag (`Bound::FromValue`) is the identity. -/
lemma bound_eta (b : Bound) : Bound.mk b.position b.inclusive = b := rfl

/-- The direction flip in `ToTarget` (`Descending` to `Ascending`, anything
else to `Descending`) is exactly the two-valued inversion. -/
lemma direction_flip_eq_inverted (d : Direction) :
    (if d == Direction.Descending then Direction.Ascending
     else Direction.Descending) = d.Inverted := by
  cases d <;> rfl

/-- C3: with `limitType = Last` the target carries the normalized ordering
with every direction inverted and the cursors swapped (each keeping its
position values and inclusive flag, absent cursors staying absent); with
`First` or `None` it carries the normalized ordering and both cursors
unchanged. -/
theorem to_target_limit_behaviour (q : Query) :
    q.ToTarget =
      match q.limit_type with
      | LimitType.Last =>
          ⟨q.path, q.collection_group, q.filters,
           q.normalized_order_bys.map
             (fun ob => ⟨ob.field, ob.direction.Inverted⟩),
           q.limit, q.end_at, q.start_at⟩
      | _ =>
          ⟨q.path, q.collection_group, q.filters, q.normalized_order_bys,
           q.limit, q.start_at, q.end_at⟩ := by
  cases hlt : q.limit_type <;>
    simp [Query.ToTarget, Query.ToTargetWithOrderBys, hlt, bound_eta]
  intro a _
  cases a.direction <;> rfl

/-- A collection query scoped at `a/b`. -/
def abQuery : Query := ⟨["a", "b"], none, [], [], -1, LimitType.None, none, none⟩

/-- A query scoped at `a`. -/
def aQuery : Query := ⟨["a"], none, [], [], -1, LimitType.None, none, none⟩

/-- An existing document at path `a/b/c`. -/
def abcDoc : Document := ⟨["a", "b", "c"], [], true⟩

/-- C4: the scope part of `Matches` — with a collection group set, the
document must belong to a collection with that id and have the query path
as a prefix; otherwise a document-shaped query path must equal the
document's path exactly; otherwise the query path must be the immediate
parent of the document's path.  In particular a document at `a/b/c` is in
scope of a query at `a/b` but not of one at `a`. -/
theorem matches_scope_characterization :
    (∀ (q : Query) (doc : Document),
      q.MatchesPathAndCollectionGroup doc =
        match q.collection_group with
        | some group =>
            DocumentKey.HasCollectionGroup doc.key group &&
              ResourcePath.IsPrefixOf q.path doc.key
        | none =>
            if DocumentKey.IsDocumentKey q.path then
              q.path == doc.key
            else
              ResourcePath.IsImmediateParentOf q.path doc.key) ∧
    abQuery.MatchesPathAndCollectionGroup abcDoc = true ∧
    aQuery.MatchesPathAndCollectionGroup abcDoc = false := by
  refine ⟨fun q doc => rfl, by decide, by decide⟩

/-- C5: a normalized ordering clause on a non-key field at which the
document has no value forces `Matches` to be false; clauses on the key
field never cause a mismatch on this ground. -/
theorem missing_order_by_field_no_match (q : Query) (doc : Document) :
    ((∃ ob ∈ q.normalized_order_bys,
        ob.field.IsKeyFieldPath = false ∧ doc.getField ob.field = none) →
      q.Matches doc = false) ∧
    ((∀ ob ∈ q.normalized_order_bys,
        ob.field.IsKeyFieldPath = false →
          (doc.getField ob.field).isSome = true) →
      q.MatchesOrderBy doc = true) := by
  constructor
  · rintro ⟨ob, hmem, hkey, hnone⟩
    have hmo : q.MatchesOrderBy doc = false := by
      simp only [Query.MatchesOrderBy, List.all_eq_false]
      exact ⟨ob, hmem, by simp [hkey, hnone]⟩
    simp [Query.Matches, hmo]
  · intro h
    simp only [Query.MatchesOrderBy, List.all_eq_true]
    intro ob hmem
    cases hkey : ob.field.IsKeyFieldPath
    · have hs := h ob hmem hkey
      simp [hs]
    · simp [hkey]

/-- Witness for C5: the `score > 10` query rejects the document without a
`score` field and accepts the ordering fields of the one carrying
`score = 15`. -/
theorem missing_order_by_field_no_match_witness :
    scoreQuery.Matches roomWithoutScore = false ∧
    scoreQuery.MatchesOrderBy roomWithScore = true := by
  constructor
  · exact (missing_order_by_field_no_match scoreQuery roomWithoutScore).1
      (by decide)
  · exact (missing_order_by_field_no_match scoreQuery roomWithScore).2
      (by decide)

/-- Two strings closed by the distinct limit-kind markers are never
equal. -/
lemma canonical_suffix_ne (s t : String) :
    s ++ "|lt:" ++ "f" ≠ t ++ "|lt:" ++ "l" := by
  intro he
  have hd : (s ++ "|lt:" ++ "f").data = (t ++ "|lt:" ++ "l").data := by
    rw [he]
  rw [String.data_append, String.data_append, String.data_append,
      String.data_append] at hd
  have h2 := List.append_inj' hd (by rfl)
  exact absurd h2.2 (by decide)

/-- C7: `CanonicalId()` is the target's canonical id suffixed with
`"|lt:l"` for limit-to-last, `"|lt:f"` for limit-to-first and nothing when
no limit is set; as a consequence two queries differing only in the limit
kind (First versus Last) have different canonical ids. -/
theorem canonical_id_limit_suffix (q : Query) :
    (q.CanonicalId = q.ToTarget.CanonicalId ++
      match q.limit_type with
      | LimitType.Last => "|lt:l"
      | LimitType.First => "|lt:f"
      | LimitType.None => "") ∧
    (q.limit_type = LimitType.First →
      q.CanonicalId ≠
        Query.CanonicalId { q with limit_type := LimitType.Last }) := by
  constructor
  · cases hlt : q.limit_type
    · simp [Query.CanonicalId, hlt]
    · simp only [Query.CanonicalId, hlt]
      rw [if_pos (by rfl), if_neg (by simp), String.append_assoc]
      rfl
    · simp only [Query.CanonicalId, hlt]
      rw [if_pos (by rfl), if_pos (by rfl), String.append_assoc]
      rfl
  · intro hf
    have h1 : q.CanonicalId = q.ToTarget.CanonicalId ++ "|lt:" ++ "f" := by
      simp only [Query.CanonicalId, hf]
      rw [if_pos (by rfl), if_neg (by simp)]
    have h2 : Query.CanonicalId { q with limit_type := LimitType.Last } =
        (Query.ToTarget
          { q with limit_type := LimitType.Last }).CanonicalId ++
          "|lt:" ++ "l" := by
      simp only [Query.CanonicalId]
      rw [if_pos (by rfl), if_pos (by rfl)]
    rw [h1, h2]
    exact canonical_suffix_ne _ _

/-- Witness for C7: the limited `score > 10` query changes canonical id
when its limit kind flips from First to Last. -/
theorem canonical_id_limit_suffix_witness :
    Query.CanonicalId (scoreQuery.WithLimitToFirst 3) ≠
      Query.CanonicalId
        { scoreQuery.WithLimitToFirst 3 with limit_type := LimitType.Last } :=
  (canonical_id_limit_suffix (scoreQuery.WithLimitToFirst 3)).2 rfl

/-- C8: two queries are equal exactly when their limit kinds agree and
their derived targets agree — filters, orderings and cursors enter only
through the target. -/
theorem query_equality_via_target (q1 q2 : Query) :
    queryEq q1 q2 = true ↔
      (q1.limit_type = q2.limit_type ∧ q1.ToTarget = q2.ToTarget) := by
  simp [queryEq]

/-- The `score > 10` field filter. -/
def scoreFilter : Filter :=
  Filter.fieldFilter ["score"] FilterOperator.GreaterThan (Value.int 10)

/-- The inequality assert fails exactly on two present, distinct
inequality fields. -/
lemma adding_filter_inequality_ok_false_iff (q : Query) (f : Filter) :
    q.addingFilterInequalityOk f = false ↔
      ∃ nf qf, f.GetFirstInequalityField = some nf ∧
        q.InequalityFilterField = some qf ∧ nf ≠ qf := by
  rcases hQ : q.InequalityFilterField with _ | qf <;>
    rcases hN : f.GetFirstInequalityField with _ | nf <;>
      simp [Query.addingFilterInequalityOk, hQ, hN]
  constructor
  · intro h
    exact fun he => h he.symm
  · intro h he
    exact h he.symm

/-- The order-by assert fails exactly on a present inequality field that
differs from the first explicit clause's field. -/
lemma adding_filter_order_by_ok_false_iff (q : Query) (f : Filter) :
    q.addingFilterOrderByOk f = false ↔
      ∃ nf ob rest, f.GetFirstInequalityField = some nf ∧
        q.explicit_order_bys = ob :: rest ∧ ob.field ≠ nf := by
  rcases hE : q.explicit_order_bys with _ | ⟨ob, rest⟩ <;>
    rcases hN : f.GetFirstInequalityField with _ | nf <;>
      simp [Query.addingFilterOrderByOk, hE, hN]

/-- C9: `AddingFilter` fails fatally exactly when the receiver is a
document query, or the filter's first inequality field exists and differs
from the receiver's inequality field, or it exists and differs from the
first explicit order-by's field; otherwise it appends the filter and keeps
every other field. -/
theorem adding_filter_behaviour (q : Query) (f : Filter) :
    (q.AddingFilter f = none ↔
      (q.IsDocumentQuery = true ∨
       (∃ nf qf, f.GetFirstInequalityField = some nf ∧
          q.InequalityFilterField = some qf ∧ nf ≠ qf) ∨
       (∃ nf ob rest, f.GetFirstInequalityField = some nf ∧
          q.explicit_order_bys = ob :: rest ∧ ob.field ≠ nf))) ∧
    (∀ q', q.AddingFilter f = some q' →
      q' = { q with filters := q.filters ++ [f] }) := by
  constructor
  · cases hdoc : q.IsDocumentQuery
    · cases h1 : q.addingFilterInequalityOk f
      · refine iff_of_true (by simp [Query.AddingFilter, hdoc, h1]) ?_
        exact Or.inr (Or.inl ((adding_filter_inequality_ok_false_iff q f).mp h1))
      · cases h2 : q.addingFilterOrderByOk f
        · refine iff_of_true (by simp [Query.AddingFilter, hdoc, h1, h2]) ?_
          exact Or.inr (Or.inr
            ((adding_filter_order_by_ok_false_iff q f).mp h2))
        · refine iff_of_false
            (by simp [Query.AddingFilter, hdoc, h1, h2]) ?_
          rintro (h | h | h)
          · exact Bool.noConfusion h
          · have hc := (adding_filter_inequality_ok_false_iff q f).mpr h
            rw [h1] at hc; cases hc
          · have hc := (adding_filter_order_by_ok_false_iff q f).mpr h
            rw [h2] at hc; cases hc
    · exact iff_of_true (by simp [Query.AddingFilter, hdoc]) (Or.inl rfl)
  · intro q' h
    rw [Query.AddingFilter] at h
    split at h
    · cases h
    · split at h
      · cases h
      · split at h
        · cases h
        · exact (Option.some.inj h).symm

/-- Witness for C9: adding `score > 10` to the document-scoped query at
`a` aborts; adding it to the collection query at `a/b` appends it. -/
theorem adding_filter_behaviour_witness :
    Query.AddingFilter aQuery scoreFilter = none ∧
    { abQuery with filters := [scoreFilter] } =
      { abQuery with filters := abQuery.filters ++ [scoreFilter] } := by
  constructor
  · exact (adding_filter_behaviour aQuery scoreFilter).1.mpr
      (Or.inl (by decide))
  · exact (adding_filter_behaviour abQuery scoreFilter).2 _ (by decide)

/-- A collection query at `a/b` ordered explicitly by `score`
descending. -/
def abOrderQuery : Query :=
  ⟨["a", "b"], none, [], [⟨["score"], Direction.Descending⟩],
   -1, LimitType.None, none, none⟩

/-- C10: on a non-document query with no explicit key clause — provided
explicit clauses exist or any inequality field is the key field — explicitly
appending the implicit key tiebreaker (the key field, with the direction of
the last explicit clause, Ascending if none) produces a query `==`-equal to
the original: both normalize to the same ordering and equality goes through
the target. -/
theorem adding_implicit_key_order_by_identity (q : Query) (d : Direction)
    (h1 : q.IsDocumentQuery = false)
    (h2 : q.explicit_order_bys.all (fun ob => !ob.field.IsKeyFieldPath) = true)
    (h3 : q.explicit_order_bys ≠ [] ∨
      (∀ i, q.InequalityFilterField = some i → i.IsKeyFieldPath = true))
    (hd : d = implicitKeyDirection q) :
    ∃ q', q.AddingOrderBy ⟨FieldPath.KeyFieldPath, d⟩ = some q' ∧
      queryEq q' q = true := by
  have hok : q.addingOrderByOk ⟨FieldPath.KeyFieldPath, d⟩ = true := by
    rw [Query.addingOrderByOk]
    rcases hE : q.explicit_order_bys with _ | ⟨ob, rest⟩
    · rcases hI : q.InequalityFilterField with _ | i
      · rfl
      · have hkey := (h3.resolve_left (by simp [hE])) i hI
        have hik : i = FieldPath.KeyFieldPath := by
          simpa [FieldPath.IsKeyFieldPath] using hkey
        simp [hik]
    · rfl
  set qext : Query :=
    { q with explicit_order_bys :=
        q.explicit_order_bys ++ [⟨FieldPath.KeyFieldPath, d⟩] } with hqext
  have hadd : q.AddingOrderBy ⟨FieldPath.KeyFieldPath, d⟩ = some qext := by
    simp [Query.AddingOrderBy, h1, hok]
  have hIext : qext.InequalityFilterField = q.InequalityFilterField := rfl
  have hqe : qext.explicit_order_bys =
      q.explicit_order_bys ++ [⟨FieldPath.KeyFieldPath, d⟩] := rfl
  have hnorm : qext.normalized_order_bys = q.normalized_order_bys := by
    rcases hE : q.explicit_order_bys with _ | ⟨ob, rest⟩
    · have hdAsc : d = Direction.Ascending := by
        rw [hd, implicitKeyDirection, hE]
        rfl
      have hEext : qext.explicit_order_bys = [⟨FieldPath.KeyFieldPath, d⟩] := by
        rw [hqe, hE]; rfl
      rcases hI : q.InequalityFilterField with _ | i
      · rw [normalized_else q (Or.inl hI),
            normalized_else qext (Or.inl (hIext.trans hI)), hE, hEext]
        simp [implicitKeyDirection, hE, hdAsc, FieldPath.IsKeyFieldPath]
      · have hkey := (h3.resolve_left (by simp [hE])) i hI
        have hik : i = FieldPath.KeyFieldPath := by
          simpa [FieldPath.IsKeyFieldPath] using hkey
        rw [normalized_synth q i hI hE,
            normalized_else qext (Or.inr (by rw [hEext]; simp)), hEext]
        simp [hik, FieldPath.IsKeyFieldPath, hdAsc]
    · have hany : q.explicit_order_bys.any
          (fun ob => ob.field.IsKeyFieldPath) = false := by
        simp only [List.all_eq_true] at h2
        simp only [List.any_eq_false]
        intro x hmem
        simpa using h2 x hmem
      have hEne : q.explicit_order_bys ≠ [] := by rw [hE]; simp
      have hEextne : qext.explicit_order_bys ≠ [] := by
        rw [hqe, hE]; simp
      rw [normalized_else q (Or.inr hEne),
          normalized_else qext (Or.inr hEextne), hqe]
      rw [if_pos (by simp [List.any_append, FieldPath.IsKeyFieldPath]),
          if_neg (by rw [hany]; simp), ← hd]
  refine ⟨qext, hadd, ?_⟩
  have ht : qext.ToTarget = q.ToTarget := by
    unfold Query.ToTarget
    rw [hnorm]
    rfl
  simp [queryEq, ht]

/-- Witness for C10: appending the implicit `(key, Descending)` tiebreaker
to the `a/b` query ordered by `score` descending leaves the query
`==`-equal to itself. -/
theorem adding_implicit_key_order_by_identity_witness :
    ∃ q', Query.AddingOrderBy abOrderQuery
        ⟨FieldPath.KeyFieldPath, Direction.Descending⟩ = some q' ∧
      queryEq q' abOrderQuery = true :=
  adding_implicit_key_order_by_identity abOrderQuery Direction.Descending
    (by decide) (by decide) (Or.inl (by decide)) (by decide)

end QueryCore
